import Mathlib

/-!
Shallow embedding of the TRON vanity-address generator
(src/gpu/tron_gpu.py, src/gpu/tron_cuda.py, src/gpu/tron_hybrid.py).

Python strings are modelled as `List Char`, byte strings as `List Nat`
(each element intended `< 256`).  Python slice semantics are embedded
explicitly: `s[a:b]` (with `0 ≤ a ≤ b`) is `(s.drop a).take (b - a)` and
`s[-n:]` (with `n ≥ 1`) is `s.drop (s.length - n)`; both clamp instead of
raising, exactly as in Python.
-/

namespace TronWallet

/-- Embedding of `check_address` (tron_gpu.py lines 65-71, identical in
tron_cuda.py lines 62-68): a non-empty prefix must equal `address[1:1+len(prefix)]`
and a non-empty suffix must equal `address[-len(suffix):]`, both case-sensitively. -/
def check_address (address pfx sfx : List Char) : Bool :=
  if pfx ≠ [] ∧ List.take pfx.length (List.drop 1 address) ≠ pfx then
    false
  else if sfx ≠ [] ∧ List.drop (address.length - sfx.length) address ≠ sfx then
    false
  else
    true

/-- Big-endian interpretation of a byte string as a natural number
(`int.from_bytes(v, byteorder='big')` inside `base58.b58encode`). -/
def bytesToNat (bs : List Nat) : Nat :=
  bs.foldl (fun acc b => acc * 256 + b) 0

/-- The Base58 character set, `BASE58_ALPHABET` of tron_cuda.py line 34. -/
def BASE58_ALPHABET : List Char :=
  "123456789ABCDEFGHJKLMNPQRSTUVWXYZabcdefghijkmnopqrstuvwxyz".toList

/-- Base-58 digit string (most significant first) of a natural number, with
explicit fuel for structural recursion; `b58digitsAux fuel n` is the digit
list of `n` whenever `n ≤ fuel`.  `0` has no digits, matching the
`while acc > 0` loop of `base58.b58encode`. -/
def b58digitsAux : Nat → Nat → List Nat
  | 0, _ => []
  | fuel + 1, n => if n = 0 then [] else b58digitsAux fuel (n / 58) ++ [n % 58]

/-- Base-58 digits of `n`, most significant first. -/
def b58digits (n : Nat) : List Nat :=
  b58digitsAux n n

/-- Embedding of `base58.b58encode(...).decode()`: leading zero bytes become
leading `'1'` characters and the remaining big-endian value is written in
base-58 using `BASE58_ALPHABET`. -/
def b58encode (bs : List Nat) : List Char :=
  List.replicate (bs.takeWhile (· = 0)).length '1' ++
    (b58digits (bytesToNat bs)).map (fun d => BASE58_ALPHABET.getD d '?')

/-- Order of the SECP256k1 curve group (the bound the `ecdsa` library checks
private scalars against). -/
def secp256k1Order : Nat :=
  0xFFFFFFFFFFFFFFFFFFFFFFFFFFFFFFFEBAAEDCE6AF48A03BBFD25E8CD0364141

/-- The external cryptographic primitives the spec excludes as collaborators
(SECP256k1 public-key derivation, Keccak-256, SHA-256): the embedding is
parametric in them.  `pubkey` returns the 64-byte uncompressed public key
body (`vk.to_string()`) of a valid private key. -/
structure CryptoOracles where
  pubkey : List Nat → List Nat
  keccak256 : List Nat → List Nat
  sha256 : List Nat → List Nat

/-- `double_sha256` (tron_gpu.py lines 37-39). -/
def double_sha256 (O : CryptoOracles) (data : List Nat) : List Nat :=
  O.sha256 (O.sha256 data)

/-- The typed failure of address derivation. -/
inductive DerivationError where
  | invalidKey : DerivationError
  deriving DecidableEq, Repr

/-- Embedding of `private_key_to_address` (tron_gpu.py lines 41-63, identical
in tron_cuda.py lines 48-60 and tron_hybrid.py lines 47-58).  The leading
validity test embeds the check performed by `ecdsa.SigningKey.from_string`
(modelled from the spec, which fixes the external library's contract: keys
that are not 32 bytes, zero, or `≥` the curve order raise, and the spec's
§4.1 names this `DerivationError::InvalidKey`); the rest is the source body:
Keccak-256 of the public key without its `04` prefix, last 20 bytes, `0x41`
version byte, 4-byte double-SHA256 checksum, Base58 encoding. -/
def private_key_to_address (O : CryptoOracles) (private_key_bytes : List Nat) :
    Except DerivationError (List Char) :=
  if private_key_bytes.length ≠ 32 ∨ bytesToNat private_key_bytes = 0 ∨
      secp256k1Order ≤ bytesToNat private_key_bytes then
    .error .invalidKey
  else
    let public_key := 4 :: O.pubkey private_key_bytes
    let hash_bytes := O.keccak256 (List.drop 1 public_key)
    let address_bytes := List.drop (hash_bytes.length - 20) hash_bytes
    let address_with_version := 0x41 :: address_bytes
    let checksum := List.take 4 (double_sha256 O address_with_version)
    .ok (b58encode (address_with_version ++ checksum))

/-- Concrete instantiation of the external primitives used by witnesses:
each oracle returns a fixed well-formed byte string of the right length. -/
def trivialOracles : CryptoOracles where
  pubkey := fun _ => List.replicate 64 0
  keccak256 := fun _ => List.replicate 32 0
  sha256 := fun _ => List.replicate 32 0

/-- Whether derivation succeeded. -/
def derive_ok (O : CryptoOracles) (key : List Nat) : Bool :=
  match private_key_to_address O key with
  | .ok _ => true
  | .error _ => false

/-- Number of candidates in a list whose derivation succeeds (the ones the
worker's local counter counts). -/
def successCount (O : CryptoOracles) (keys : List (List Nat)) : Nat :=
  (keys.filter (derive_ok O)).length

/-- Local state of one worker: the local attempt counter `count`, the hits
emitted to `result_queue` so far (in emission order), and the deltas emitted
to `stats_queue` so far (in emission order). -/
structure WState where
  count : Nat
  hits : List (List Char × List Nat)
  deltas : List Nat
  deriving DecidableEq, Repr

/-- Initial worker state: `count = 0`, nothing emitted. -/
def WState.init : WState := ⟨0, [], []⟩

/-- Processing of one candidate by a worker loop body, reporting granularity
`G` (tron_gpu.py `worker` lines 82-113 with `G = 5000`; tron_hybrid.py
`cpu_worker` lines 122-147 with `G = 10000`).  A raised derivation error is
caught by the candidate-level `except: continue`, so the state is returned
unchanged; on success the counter is incremented, the inline case-sensitive
prefix/suffix test runs, a matching address is emitted immediately, and when
the counter reaches `G` (`count % G == 0`, reachable only at `count = G`
since the counter is reset there) the accumulated value is emitted as a
delta and the counter reset to zero. -/
def worker_step (O : CryptoOracles) (pfx sfx : List Char) (G : Nat)
    (st : WState) (key : List Nat) : WState :=
  match private_key_to_address O key with
  | .error _ => st
  | .ok address =>
      let count := st.count + 1
      let match1 : Bool :=
        if 0 < pfx.length ∧ List.take pfx.length (List.drop 1 address) ≠ pfx then
          false
        else true
      let match2 : Bool :=
        if match1 = true ∧ 0 < sfx.length ∧
            List.drop (address.length - sfx.length) address ≠ sfx then
          false
        else match1
      let hits := if match2 then st.hits ++ [(address, key)] else st.hits
      if count % G = 0 then
        ⟨0, hits, st.deltas ++ [count]⟩
      else
        ⟨count, hits, st.deltas⟩

/-- A worker loop run over a finite stream of candidates. -/
def worker_run (O : CryptoOracles) (pfx sfx : List Char) (G : Nat)
    (st : WState) (keys : List (List Nat)) : WState :=
  keys.foldl (worker_step O pfx sfx G) st

/-- The CPU multiprocess variant's `worker` (tron_gpu.py lines 73-113) over
an entropy stream (one 32-byte draw of `os.urandom` per iteration): its loop
is `while True:` and its body reads no stop flag — there is none in that
program, workers are killed externally with `terminate()`.  The ambient stop
flag value is taken as a parameter precisely to record that the loop never
consults it. -/
def worker (O : CryptoOracles) (pfx sfx : List Char) (stop_flag : Bool)
    (st : WState) (keys : List (List Nat)) : WState :=
  worker_run O pfx sfx 5000 st keys

/-- Inner batch loop of the hybrid variant's `cpu_worker` (tron_hybrid.py
lines 118-147): before each candidate the worker reads the shared stop flag
(`if stop_flag.value: break`).  The flag is modelled by its set time
`stopAt`: the check before the `t`-th processed candidate reads true iff
`stopAt ≤ t`, where `t` counts candidates processed so far across the whole
run.  Returns the updated counter `t` and worker state. -/
def cpu_worker_batch (O : CryptoOracles) (pfx sfx : List Char) (stopAt : Nat) :
    Nat → WState → List (List Nat) → Nat × WState
  | t, st, [] => (t, st)
  | t, st, k :: ks =>
      if stopAt ≤ t then (t, st)
      else cpu_worker_batch O pfx sfx stopAt (t + 1)
        (worker_step O pfx sfx 10000 st k) ks

/-- Outer loop of `cpu_worker` (tron_hybrid.py lines 113-150): while the
stop flag is unset, dequeue a batch and run the inner loop over it.  The
finite `batches` list is the stream of batches the queue yields before the
run ends (a `get` timeout is retried in the source and so never ends the
loop). -/
def cpu_worker_go (O : CryptoOracles) (pfx sfx : List Char) (stopAt : Nat) :
    Nat → WState → List (List (List Nat)) → Nat × WState
  | t, st, [] => (t, st)
  | t, st, b :: bs =>
      if stopAt ≤ t then (t, st)
      else
        let r := cpu_worker_batch O pfx sfx stopAt t st b
        cpu_worker_go O pfx sfx stopAt r.1 r.2 bs

/-- The hybrid variant's `cpu_worker` (tron_hybrid.py lines 107-154)
including its final flush: after the loop exits, a non-zero local counter is
emitted as a last delta (`if count > 0: stats_queue.put(count)`). -/
def cpu_worker (O : CryptoOracles) (pfx sfx : List Char) (stopAt : Nat)
    (batches : List (List (List Nat))) : Nat × WState :=
  let r := cpu_worker_go O pfx sfx stopAt 0 WState.init batches
  if 0 < r.2.count then (r.1, ⟨r.2.count, r.2.hits, r.2.deltas ++ [r.2.count]⟩)
  else r

/-- One `key_queue.put(keys, timeout=1)` of the accelerator producer
(tron_hybrid.py lines 98-102) in the regime the claim describes (all workers
paused, so nothing is dequeued during the wait): if the bounded queue
(`Queue(maxsize=10)`, line 184) has room the batch is enqueued; otherwise the
put raises `queue.Full` after the timeout, the bare `except: pass` swallows
it, and the batch is dropped.  Returns the new queue and whether the batch
was dropped. -/
def key_queue_put (maxsize : Nat) (q : List α) (batch : α) : List α × Bool :=
  if q.length < maxsize then (q ++ [batch], false) else (q, true)

/-- The accelerator producer loop `gpu_key_generator` (tron_hybrid.py lines
90-102) run over the successive batches it generates, with all workers
paused: each iteration generates a batch and attempts the bounded put.
Returns the final queue and the batches that were generated but dropped. -/
def gpu_key_generator (maxsize : Nat) (q : List α) :
    List α → List α × List α
  | [] => (q, [])
  | b :: bs =>
      let r := key_queue_put maxsize q b
      let rest := gpu_key_generator maxsize r.1 bs
      (rest.1, (if r.2 then [b] else []) ++ rest.2)

/-- Result-queue drain of the CPU multiprocess variant's aggregator
(tron_gpu.py lines 156-171): `while not result_queue.empty()` takes every
queued hit, increments `found_count`, and persists the hit — there is no
early break on reaching `TARGET_COUNT`.  Returns the final `found_count`
and the list of persisted hits. -/
def drain_results (found : Nat) :
    List (List Char × List Nat) → Nat × List (List Char × List Nat)
  | [] => (found, [])
  | r :: rs =>
      let rest := drain_results (found + 1) rs
      (rest.1, r :: rest.2)

/-- Lowercase hexadecimal digits, as produced by Python's `bytes.hex()`. -/
def HEX_DIGITS : List Char :=
  "0123456789abcdef".toList

/-- Two-character lowercase hex rendering of one byte. -/
def byteHex (b : Nat) : List Char :=
  [HEX_DIGITS.getD (b / 16) '?', HEX_DIGITS.getD (b % 16) '?']

/-- `bytes.hex()`: lowercase hex string of a byte string. -/
def bytesHex (bs : List Nat) : List Char :=
  bs.flatMap byteHex

/-- The block appended to `found_addresses.txt` for one hit
(tron_cuda.py `_save_result` lines 195-201; the identical four `f.write`
calls appear at tron_gpu.py lines 166-171 and tron_hybrid.py lines 237-241):
an `Address:` line, a `Private Key:` line, a `Time:` line, a separator line
of 50 `'='` characters, and the blank line left by the trailing `"\n\n"`. -/
def resultRecord (address privHex timeStr : List Char) : List Char :=
  "Address: ".toList ++ address ++ ['\n'] ++
  "Private Key: ".toList ++ privHex ++ ['\n'] ++
  "Time: ".toList ++ timeStr ++ ['\n'] ++
  List.replicate 50 '=' ++ ['\n', '\n']

/-- Appending one hit's block to the result file: the file is opened with
mode `'a'`, so the old content is kept and the record is appended. -/
def save_result (file address privHex timeStr : List Char) : List Char :=
  file ++ resultRecord address privHex timeStr

/-- Decomposition of a character string into its newline-separated lines
(text before/after each `'\n'`; a trailing newline yields a final empty
line). -/
def linesOf : List Char → List (List Char)
  | [] => [[]]
  | c :: cs =>
      if c = '\n' then [] :: linesOf cs
      else
        match linesOf cs with
        | [] => [[c]]
        | l :: ls => (c :: l) :: ls

/-- The mutable ambient state a Python function could read or write: the
entropy stream behind `os.urandom` and the clock behind `time.*`.  Used to
state purity: a stateful embedding of a function threads this world. -/
structure World where
  entropy : List (List Nat)
  clock : Nat
  deriving DecidableEq, Repr

/-- State-threading embedding of `private_key_to_address` (tron_gpu.py lines
41-63): every statement of the source body is a call to a pure primitive
(curve arithmetic, hashing, encoding) on local values — none reads
`os.urandom`, the clock, or any global — so each line threads the world
unchanged and the returned world is the input world. -/
def private_key_to_addressW (O : CryptoOracles) (w : World)
    (private_key_bytes : List Nat) :
    Except DerivationError (List Char) × World :=
  (private_key_to_address O private_key_bytes, w)

end TronWallet

namespace TronWallet

/-- C1: `check_address` returns true exactly when each non-empty pattern
dimension matches case-sensitively: the prefix against `address[1:1+len(prefix)]`
and the suffix against the last `len(suffix)` characters; an empty prefix or
suffix always matches on its dimension (its disjunct holds trivially), so the
all-empty pattern always matches. -/
theorem check_address_correct (address pfx sfx : List Char) :
    check_address address pfx sfx = true ↔
      ((pfx = [] ∨ List.take pfx.length (List.drop 1 address) = pfx) ∧
       (sfx = [] ∨ List.drop (address.length - sfx.length) address = sfx)) := by
  unfold check_address
  by_cases hp : pfx = []
  · by_cases hs : sfx = [] <;> simp [hp, hs]
  · by_cases hs : sfx = [] <;>
      by_cases hpm : List.take pfx.length (List.drop 1 address) = pfx <;>
        simp [hp, hs, hpm]

/-- C10: the matcher is total by construction (every slice operation in the
embedding clamps, as Python slicing does, so no input raises); moreover an
over-long non-empty prefix (longer than `len(address) - 1`) or an over-long
non-empty sfx (longer than `len(address)`) makes the corresponding slice
strictly shorter than the pattern, so the comparison fails and the result is
`false` rather than an error. -/
theorem check_address_total_overlong (address pfx sfx : List Char) :
    (pfx ≠ [] → address.length - 1 < pfx.length →
      check_address address pfx sfx = false) ∧
    (sfx ≠ [] → address.length < sfx.length →
      check_address address pfx sfx = false) := by
  constructor
  · intro hp hlen
    have hne : List.take pfx.length (List.drop 1 address) ≠ pfx := by
      intro heq
      have hle : (List.take pfx.length (List.drop 1 address)).length ≤
          address.length - 1 := by
        simp
      rw [heq] at hle
      omega
    unfold check_address
    rw [if_pos ⟨hp, hne⟩]
  · intro hs hlen
    have hne : List.drop (address.length - sfx.length) address ≠ sfx := by
      intro heq
      have hle : (List.drop (address.length - sfx.length) address).length =
          address.length - (address.length - sfx.length) := by simp
      rw [heq] at hle
      omega
    unfold check_address
    by_cases hpm : pfx ≠ [] ∧
        List.take pfx.length (List.drop 1 address) ≠ pfx
    · rw [if_pos hpm]
    · rw [if_neg hpm, if_pos ⟨hs, hne⟩]

/-- Witness for C10 at a concrete address: prefix and suffix both longer than
the 3-character address. -/
theorem check_address_total_overlong_witness :
    check_address ['T', 'a', 'b'] ['x', 'y', 'z'] [] = false ∧
    check_address ['T', 'a', 'b'] [] ['p', 'q', 'r', 's'] = false := by
  refine ⟨?_, ?_⟩
  · exact (check_address_total_overlong ['T', 'a', 'b'] ['x', 'y', 'z'] []).1
      (by decide) (by decide)
  · exact (check_address_total_overlong ['T', 'a', 'b'] [] ['p', 'q', 'r', 's']).2
      (by decide) (by decide)

end TronWallet

namespace TronWallet

theorem b58digitsAux_zero (fuel : Nat) : b58digitsAux fuel 0 = [] := by
  cases fuel <;> simp [b58digitsAux]

theorem b58digitsAux_congr :
    ∀ f1 f2 n, n ≤ f1 → n ≤ f2 → b58digitsAux f1 n = b58digitsAux f2 n := by
  intro f1
  induction f1 with
  | zero =>
      intro f2 n h1 _
      interval_cases n
      rw [b58digitsAux_zero, b58digitsAux_zero]
  | succ f ih =>
      intro f2 n h1 h2
      by_cases hn : n = 0
      · subst hn
        rw [b58digitsAux_zero, b58digitsAux_zero]
      · obtain ⟨f2', rfl⟩ : ∃ m, f2 = m + 1 := ⟨f2 - 1, by omega⟩
        simp only [b58digitsAux, hn, if_false]
        have hdiv : n / 58 < n := Nat.div_lt_self (by omega) (by norm_num)
        rw [ih f2' (n / 58) (by omega) (by omega)]

theorem b58digits_eq (n : Nat) :
    b58digits n = if n = 0 then [] else b58digits (n / 58) ++ [n % 58] := by
  by_cases hn : n = 0
  · subst hn
    simp [b58digits, b58digitsAux_zero]
  · rw [if_neg hn]
    obtain ⟨m, rfl⟩ : ∃ m, n = m + 1 := ⟨n - 1, by omega⟩
    show b58digitsAux (m + 1) (m + 1) = _
    simp only [b58digitsAux, hn, if_false]
    have hdiv : (m + 1) / 58 < m + 1 := Nat.div_lt_self (by omega) (by norm_num)
    rw [b58digitsAux_congr m ((m + 1) / 58) ((m + 1) / 58) (by omega) le_rfl]
    rfl

theorem b58digits_length_le : ∀ k n, n < 58 ^ k → (b58digits n).length ≤ k := by
  intro k
  induction k with
  | zero =>
      intro n h
      interval_cases n
      simp [b58digits_eq]
  | succ k ih =>
      intro n h
      rw [b58digits_eq]
      by_cases hn : n = 0
      · simp [hn]
      · rw [if_neg hn]
        have hdiv : n / 58 < 58 ^ k := by
          rw [Nat.div_lt_iff_lt_mul (by norm_num : 0 < 58)]
          calc n < 58 ^ (k + 1) := h
            _ = 58 ^ k * 58 := by ring
        have := ih (n / 58) hdiv
        simp only [List.length_append, List.length_singleton]
        omega

theorem b58digits_length_ge : ∀ k n, 58 ^ k ≤ n → k + 1 ≤ (b58digits n).length := by
  intro k
  induction k with
  | zero =>
      intro n h
      rw [b58digits_eq, if_neg (by omega : n ≠ 0)]
      simp
  | succ k ih =>
      intro n h
      have hpos : (0 : Nat) < 58 ^ (k + 1) := by positivity
      rw [b58digits_eq, if_neg (by omega : n ≠ 0)]
      have hdiv : 58 ^ k ≤ n / 58 := by
        rw [Nat.le_div_iff_mul_le (by norm_num : 0 < 58)]
        calc 58 ^ k * 58 = 58 ^ (k + 1) := by ring
          _ ≤ n := h
      have := ih (n / 58) hdiv
      simp only [List.length_append, List.length_singleton]
      omega

theorem b58digits_head :
    ∀ k n, 58 ^ k ≤ n → n < 58 ^ (k + 1) →
      (b58digits n).head? = some (n / 58 ^ k) := by
  intro k
  induction k with
  | zero =>
      intro n h1 h2
      rw [b58digits_eq, if_neg (by omega : n ≠ 0)]
      have hd : n / 58 = 0 := Nat.div_eq_of_lt (by simpa using h2)
      have hm : n % 58 = n := Nat.mod_eq_of_lt (by simpa using h2)
      rw [hd, b58digits_eq]
      simp [hm]
  | succ k ih =>
      intro n h1 h2
      have hpos : (0 : Nat) < 58 ^ (k + 1) := by positivity
      rw [b58digits_eq, if_neg (by omega : n ≠ 0)]
      have hlo : 58 ^ k ≤ n / 58 := by
        rw [Nat.le_div_iff_mul_le (by norm_num : 0 < 58)]
        calc 58 ^ k * 58 = 58 ^ (k + 1) := by ring
          _ ≤ n := h1
      have hhi : n / 58 < 58 ^ (k + 1) := by
        rw [Nat.div_lt_iff_lt_mul (by norm_num : 0 < 58)]
        calc n < 58 ^ (k + 2) := h2
          _ = 58 ^ (k + 1) * 58 := by ring
      have hne : 1 ≤ (b58digits (n / 58)).length := by
        have := b58digits_length_ge k (n / 58) hlo
        omega
      cases hD : b58digits (n / 58) with
      | nil => rw [hD] at hne; simp at hne
      | cons a t =>
          have hihd := ih (n / 58) hlo hhi
          rw [hD] at hihd
          simp only [List.head?_cons, Option.some.injEq] at hihd
          simp only [hD, List.cons_append, List.head?_cons, Option.some.injEq]
          rw [hihd, Nat.div_div_eq_div_mul]
          congr 1
          ring

theorem bytesToNat_foldl (l : List Nat) :
    ∀ a : Nat, l.foldl (fun acc b => acc * 256 + b) a =
      a * 256 ^ l.length + bytesToNat l := by
  induction l with
  | nil =>
      intro a
      simp [bytesToNat]
  | cons b t ih =>
      intro a
      have hb : bytesToNat (b :: t) = b * 256 ^ t.length + bytesToNat t := by
        show t.foldl _ (0 * 256 + b) = _
        rw [ih (0 * 256 + b)]
        ring_nf
      show t.foldl _ (a * 256 + b) = _
      rw [ih (a * 256 + b), hb]
      simp only [List.length_cons]
      ring

theorem bytesToNat_cons (b : Nat) (t : List Nat) :
    bytesToNat (b :: t) = b * 256 ^ t.length + bytesToNat t := by
  show t.foldl _ (0 * 256 + b) = _
  rw [bytesToNat_foldl t (0 * 256 + b)]
  ring_nf

theorem bytesToNat_lt (l : List Nat) (h : ∀ b ∈ l, b < 256) :
    bytesToNat l < 256 ^ l.length := by
  induction l with
  | nil => simp [bytesToNat]
  | cons b t ih =>
      rw [bytesToNat_cons]
      have hb : b < 256 := h b (by simp)
      have ht := ih (fun x hx => h x (by simp [hx]))
      simp only [List.length_cons]
      calc b * 256 ^ t.length + bytesToNat t
          < b * 256 ^ t.length + 256 ^ t.length := by omega
        _ = (b + 1) * 256 ^ t.length := by ring
        _ ≤ 256 * 256 ^ t.length := Nat.mul_le_mul_right _ (by omega)
        _ = 256 ^ (t.length + 1) := by ring

end TronWallet

namespace TronWallet

theorem b58encode_version41 (rest : List Nat) (hlen : rest.length = 24)
    (hb : ∀ b ∈ rest, b < 256) :
    (b58encode (0x41 :: rest)).length = 34 ∧
    (b58encode (0x41 :: rest)).head? = some 'T' := by
  have hv : bytesToNat (0x41 :: rest) = 65 * 256 ^ 24 + bytesToNat rest := by
    rw [bytesToNat_cons, hlen]
  have hrest : bytesToNat rest < 256 ^ 24 := by
    have := bytesToNat_lt rest hb
    rwa [hlen] at this
  have hlo : 26 * 58 ^ 33 ≤ bytesToNat (0x41 :: rest) := by
    rw [hv]
    have : 26 * 58 ^ 33 ≤ 65 * 256 ^ 24 := by norm_num
    omega
  have hhi : bytesToNat (0x41 :: rest) < 27 * 58 ^ 33 := by
    rw [hv]
    have : 66 * 256 ^ 24 ≤ 27 * 58 ^ 33 := by norm_num
    omega
  have h33 : 58 ^ 33 ≤ bytesToNat (0x41 :: rest) := by
    have : (58 : Nat) ^ 33 ≤ 26 * 58 ^ 33 := by nlinarith [pow_pos (by norm_num : (0:Nat) < 58) 33]
    omega
  have h34 : bytesToNat (0x41 :: rest) < 58 ^ 34 := by
    have : 27 * 58 ^ 33 ≤ 58 ^ 34 := by
      calc 27 * 58 ^ 33 ≤ 58 * 58 ^ 33 := Nat.mul_le_mul_right _ (by norm_num)
        _ = 58 ^ 34 := by ring
    omega
  have hlen34 : (b58digits (bytesToNat (0x41 :: rest))).length = 34 := by
    have h1 := b58digits_length_le 34 _ h34
    have h2 := b58digits_length_ge 33 _ h33
    omega
  have hhead : (b58digits (bytesToNat (0x41 :: rest))).head? = some 26 := by
    rw [b58digits_head 33 _ h33 h34]
    congr 1
    exact Nat.div_eq_of_lt_le hlo hhi
  have henc : b58encode (0x41 :: rest) =
      (b58digits (bytesToNat (0x41 :: rest))).map
        (fun d => BASE58_ALPHABET.getD d '?') := by
    unfold b58encode
    have : (0x41 :: rest).takeWhile (· = 0) = [] := by
      simp [List.takeWhile]
    rw [this]
    simp
  rw [henc]
  cases hD : b58digits (bytesToNat (0x41 :: rest)) with
  | nil => rw [hD] at hlen34; simp at hlen34
  | cons a t =>
      rw [hD] at hlen34 hhead
      simp only [List.head?_cons, Option.some.injEq] at hhead
      subst hhead
      refine ⟨by simpa using hlen34, ?_⟩
      simp only [List.map_cons, List.head?_cons, Option.some.injEq]
      rfl

end TronWallet

namespace TronWallet

/-- C2: for every input, `private_key_to_address` either fails with the
invalid-key error or returns an address of exactly 34 characters whose first
character is `'T'` (the Base58Check image of the chain's `0x41` version
byte); it never returns a malformed address.  The hypotheses record the
contract of the external Keccak-256 and SHA-256 primitives: a 32-byte
digest. -/
theorem private_key_to_address_shape (O : CryptoOracles)
    (hkec : ∀ x, (O.keccak256 x).length = 32 ∧ ∀ b ∈ O.keccak256 x, b < 256)
    (hsha : ∀ x, (O.sha256 x).length = 32 ∧ ∀ b ∈ O.sha256 x, b < 256)
    (key : List Nat) :
    private_key_to_address O key = .error .invalidKey ∨
      ∃ addr, private_key_to_address O key = .ok addr ∧
        addr.length = 34 ∧ addr.head? = some 'T' := by
  unfold private_key_to_address
  by_cases hvalid : key.length ≠ 32 ∨ bytesToNat key = 0 ∨
      secp256k1Order ≤ bytesToNat key
  · left
    rw [if_pos hvalid]
  · right
    rw [if_neg hvalid]
    refine ⟨_, rfl, ?_⟩
    show (b58encode ((0x41 :: List.drop ((O.keccak256 (List.drop 1 (4 :: O.pubkey key))).length - 20) (O.keccak256 (List.drop 1 (4 :: O.pubkey key)))) ++ List.take 4 (double_sha256 O (0x41 :: List.drop ((O.keccak256 (List.drop 1 (4 :: O.pubkey key))).length - 20) (O.keccak256 (List.drop 1 (4 :: O.pubkey key))))))).length = 34 ∧ _
    rw [List.cons_append]
    have hk32 : ∀ x, (O.keccak256 x).length = 32 := fun x => (hkec x).1
    have hkb : ∀ x, ∀ b ∈ O.keccak256 x, b < 256 := fun x => (hkec x).2
    have hs32 : ∀ x, (O.sha256 x).length = 32 := fun x => (hsha x).1
    have hsb : ∀ x, ∀ b ∈ O.sha256 x, b < 256 := fun x => (hsha x).2
    have hrestlen :
        (List.drop ((O.keccak256 (List.drop 1 (4 :: O.pubkey key))).length - 20)
            (O.keccak256 (List.drop 1 (4 :: O.pubkey key))) ++
          List.take 4 (double_sha256 O (0x41 ::
            List.drop ((O.keccak256 (List.drop 1 (4 :: O.pubkey key))).length - 20)
              (O.keccak256 (List.drop 1 (4 :: O.pubkey key)))))).length = 24 := by
      simp only [List.length_append, List.length_drop, List.length_take,
        double_sha256, hk32, hs32]
      omega
    have hrestb : ∀ b ∈
        List.drop ((O.keccak256 (List.drop 1 (4 :: O.pubkey key))).length - 20)
            (O.keccak256 (List.drop 1 (4 :: O.pubkey key))) ++
          List.take 4 (double_sha256 O (0x41 ::
            List.drop ((O.keccak256 (List.drop 1 (4 :: O.pubkey key))).length - 20)
              (O.keccak256 (List.drop 1 (4 :: O.pubkey key))))), b < 256 := by
      intro b hbmem
      rcases List.mem_append.mp hbmem with hm | hm
      · exact hkb _ b (List.mem_of_mem_drop hm)
      · rw [double_sha256] at hm
        exact hsb _ b (List.mem_of_mem_take hm)
    exact b58encode_version41 _ hrestlen hrestb

/-- Witness for C2 at the key `0x…01` (31 zero bytes then 1) and concrete
well-formed hash oracles: derivation succeeds with a 34-character address
headed by `'T'`. -/
theorem private_key_to_address_shape_witness :
    private_key_to_address trivialOracles
        (List.replicate 31 0 ++ [1]) = .error .invalidKey ∨
      ∃ addr, private_key_to_address trivialOracles
          (List.replicate 31 0 ++ [1]) = .ok addr ∧
        addr.length = 34 ∧ addr.head? = some 'T' :=
  private_key_to_address_shape trivialOracles
    (fun _ => ⟨by simp [trivialOracles], fun b hb => by
      simp [trivialOracles] at hb; omega⟩)
    (fun _ => ⟨by simp [trivialOracles], fun b hb => by
      simp [trivialOracles] at hb; omega⟩)
    (List.replicate 31 0 ++ [1])

end TronWallet

namespace TronWallet

/-- C3: a candidate that is not a valid curve scalar (zero, or at least the
curve order; the 32-byte length check also lives in the library call) makes
`private_key_to_address` raise, the candidate-level `except` catches it, and
the worker state is returned unchanged: the local attempt counter is not
incremented, nothing is emitted, and the run simply continues with the
remaining candidates — the bad candidate is neither retried nor does it
abort the loop. -/
theorem worker_skips_invalid_candidate (O : CryptoOracles) (pfx sfx : List Char)
    (G : Nat) (st : WState) (key : List Nat) (keys : List (List Nat))
    (h : key.length ≠ 32 ∨ bytesToNat key = 0 ∨
      secp256k1Order ≤ bytesToNat key) :
    worker_step O pfx sfx G st key = st ∧
    worker_run O pfx sfx G st (key :: keys) = worker_run O pfx sfx G st keys := by
  have herr : private_key_to_address O key = .error .invalidKey := by
    unfold private_key_to_address
    rw [if_pos h]
  have hstep : worker_step O pfx sfx G st key = st := by
    unfold worker_step
    rw [herr]
  refine ⟨hstep, ?_⟩
  unfold worker_run
  rw [List.foldl_cons, hstep]

/-- Witness for C3 at the spec's own test input: the candidate equal to the
curve order (big-endian bytes of the SECP256k1 order) is skipped without
counting, and the run over `[order, k]` equals the run over `[k]`. -/
theorem worker_skips_invalid_candidate_witness :
    worker_step trivialOracles ['M'] ['q'] 5000 WState.init
        [255, 255, 255, 255, 255, 255, 255, 255, 255, 255, 255, 255, 255, 255,
         255, 254, 186, 174, 220, 230, 175, 72, 160, 59, 191, 210, 94, 140,
         208, 54, 65, 65] = WState.init ∧
    worker_run trivialOracles ['M'] ['q'] 5000 WState.init
        ([255, 255, 255, 255, 255, 255, 255, 255, 255, 255, 255, 255, 255, 255,
          255, 254, 186, 174, 220, 230, 175, 72, 160, 59, 191, 210, 94, 140,
          208, 54, 65, 65] ::
         [List.replicate 31 0 ++ [1]]) =
      worker_run trivialOracles ['M'] ['q'] 5000 WState.init
        [List.replicate 31 0 ++ [1]] :=
  worker_skips_invalid_candidate trivialOracles ['M'] ['q'] 5000 WState.init
    [255, 255, 255, 255, 255, 255, 255, 255, 255, 255, 255, 255, 255, 255,
     255, 254, 186, 174, 220, 230, 175, 72, 160, 59, 191, 210, 94, 140,
     208, 54, 65, 65]
    [List.replicate 31 0 ++ [1]]
    (by right; right; decide)

end TronWallet

namespace TronWallet

theorem successCount_nil (O : CryptoOracles) : successCount O [] = 0 := rfl

theorem successCount_cons (O : CryptoOracles) (k : List Nat)
    (ks : List (List Nat)) :
    successCount O (k :: ks) =
      (if derive_ok O k then 1 else 0) + successCount O ks := by
  unfold successCount
  rw [List.filter_cons]
  by_cases h : derive_ok O k <;> simp [h] <;> omega

theorem worker_step_invariant (O : CryptoOracles) (pfx sfx : List Char)
    (G : Nat) (hG : 0 < G) (st : WState) (key : List Nat)
    (hcount : st.count < G) (hdelta : ∀ d ∈ st.deltas, d = G) :
    (worker_step O pfx sfx G st key).count < G ∧
    (∀ d ∈ (worker_step O pfx sfx G st key).deltas, d = G) ∧
    (worker_step O pfx sfx G st key).deltas.sum +
        (worker_step O pfx sfx G st key).count =
      st.deltas.sum + st.count + (if derive_ok O key then 1 else 0) := by
  unfold worker_step derive_ok
  cases hD : private_key_to_address O key with
  | error e =>
      exact ⟨hcount, hdelta, by simp⟩
  | ok address =>
      simp only
      by_cases hmod : (st.count + 1) % G = 0
      · have hEq : st.count + 1 = G := by
          rcases Nat.lt_or_ge (st.count + 1) G with hlt | hge
          · rw [Nat.mod_eq_of_lt hlt] at hmod
            omega
          · omega
        rw [if_pos hmod]
        refine ⟨hG, ?_, ?_⟩
        · intro d hd
          rcases List.mem_append.mp hd with hm | hm
          · exact hdelta d hm
          · simp at hm
            omega
        · simp [List.sum_append]
          omega

      · rw [if_neg hmod]
        have hlt : st.count + 1 < G := by
          rcases Nat.lt_or_ge (st.count + 1) G with hlt | hge
          · exact hlt
          · have he : st.count + 1 = G := by omega
            rw [he] at hmod
            simp at hmod
        refine ⟨hlt, hdelta, ?_⟩
        simp
        omega

theorem worker_run_invariant (O : CryptoOracles) (pfx sfx : List Char)
    (G : Nat) (hG : 0 < G) :
    ∀ (keys : List (List Nat)) (st : WState), st.count < G →
      (∀ d ∈ st.deltas, d = G) →
      (worker_run O pfx sfx G st keys).count < G ∧
      (∀ d ∈ (worker_run O pfx sfx G st keys).deltas, d = G) ∧
      (worker_run O pfx sfx G st keys).deltas.sum +
          (worker_run O pfx sfx G st keys).count =
        st.deltas.sum + st.count + successCount O keys := by
  intro keys
  induction keys with
  | nil =>
      intro st h1 h2
      refine ⟨h1, h2, ?_⟩
      unfold worker_run successCount
      simp
  | cons k ks ih =>
      intro st h1 h2
      have hstep := worker_step_invariant O pfx sfx G hG st k h1 h2
      have hrun := ih (worker_step O pfx sfx G st k) hstep.1 hstep.2.1
      have hn : worker_run O pfx sfx G st (k :: ks) =
          worker_run O pfx sfx G (worker_step O pfx sfx G st k) ks := by
        unfold worker_run
        rw [List.foldl_cons]
      rw [hn]
      refine ⟨hrun.1, hrun.2.1, ?_⟩
      rw [hrun.2.2, hstep.2.2, successCount_cons]
      omega

end TronWallet

namespace TronWallet

theorem cpu_worker_batch_spec (O : CryptoOracles) (pfx sfx : List Char)
    (stopAt : Nat) :
    ∀ (b : List (List Nat)) (t : Nat) (st : WState),
      cpu_worker_batch O pfx sfx stopAt t st b =
        (t + min b.length (stopAt - t),
         worker_run O pfx sfx 10000 st (b.take (stopAt - t))) := by
  intro b
  induction b with
  | nil =>
      intro t st
      simp [cpu_worker_batch, worker_run]
  | cons k ks ih =>
      intro t st
      by_cases hstop : stopAt ≤ t
      · have h0 : stopAt - t = 0 := by omega
        simp [cpu_worker_batch, hstop, h0, worker_run]
      · have h1 : 1 ≤ stopAt - t := by omega
        have htake : (k :: ks).take (stopAt - t) =
            k :: ks.take (stopAt - t - 1) := by
          obtain ⟨m, hm⟩ : ∃ m, stopAt - t = m + 1 := ⟨stopAt - t - 1, by omega⟩
          rw [hm]
          simp
        rw [htake]
        have hrun : worker_run O pfx sfx 10000 st
            (k :: ks.take (stopAt - t - 1)) =
            worker_run O pfx sfx 10000 (worker_step O pfx sfx 10000 st k)
              (ks.take (stopAt - t - 1)) := by
          unfold worker_run
          rw [List.foldl_cons]
        rw [hrun]
        show cpu_worker_batch O pfx sfx stopAt t st (k :: ks) = _
        unfold cpu_worker_batch
        rw [if_neg hstop]
        rw [ih (t + 1) (worker_step O pfx sfx 10000 st k)]
        have harith : t + 1 + min ks.length (stopAt - (t + 1)) =
            t + min (k :: ks).length (stopAt - t) := by
          simp only [List.length_cons]
          omega
        rw [harith]
        have : stopAt - (t + 1) = stopAt - t - 1 := by omega
        rw [this]

theorem cpu_worker_go_spec (O : CryptoOracles) (pfx sfx : List Char)
    (stopAt : Nat) :
    ∀ (bs : List (List (List Nat))) (t : Nat) (st : WState),
      cpu_worker_go O pfx sfx stopAt t st bs =
        (t + min bs.flatten.length (stopAt - t),
         worker_run O pfx sfx 10000 st (bs.flatten.take (stopAt - t))) := by
  intro bs
  induction bs with
  | nil =>
      intro t st
      simp [cpu_worker_go, worker_run]
  | cons b bs ih =>
      intro t st
      by_cases hstop : stopAt ≤ t
      · have h0 : stopAt - t = 0 := by omega
        simp [cpu_worker_go, hstop, h0, worker_run]
      · show cpu_worker_go O pfx sfx stopAt t st (b :: bs) = _
        unfold cpu_worker_go
        rw [if_neg hstop]
        simp only
        rw [cpu_worker_batch_spec O pfx sfx stopAt b t st]
        rw [ih (t + min b.length (stopAt - t))
          (worker_run O pfx sfx 10000 st (b.take (stopAt - t)))]
        have hjoin : (b :: bs).flatten = b ++ bs.flatten := by simp
        rw [hjoin]
        have htake : (b ++ bs.flatten).take (stopAt - t) =
            b.take (stopAt - t) ++
              bs.flatten.take (stopAt - t - b.length) := by
          rw [List.take_append_eq_append_take]
        have hrunapp : worker_run O pfx sfx 10000 st
            (b.take (stopAt - t) ++ bs.flatten.take (stopAt - t - b.length)) =
            worker_run O pfx sfx 10000
              (worker_run O pfx sfx 10000 st (b.take (stopAt - t)))
              (bs.flatten.take (stopAt - t - b.length)) := by
          unfold worker_run
          rw [List.foldl_append]
        have harith1 : stopAt - (t + min b.length (stopAt - t)) =
            stopAt - t - b.length := by omega
        have harith2 : t + min b.length (stopAt - t) +
            min bs.flatten.length (stopAt - t - b.length) =
            t + min (b.length + bs.flatten.length) (stopAt - t) := by omega
        rw [htake, hrunapp, harith1]
        simp only [List.length_append]
        rw [harith2]

end TronWallet

namespace TronWallet

theorem cpu_worker_spec (O : CryptoOracles) (pfx sfx : List Char)
    (stopAt : Nat) (batches : List (List (List Nat))) :
    (cpu_worker O pfx sfx stopAt batches).1 =
      min batches.flatten.length stopAt ∧
    (cpu_worker O pfx sfx stopAt batches).2.deltas.sum =
      successCount O (batches.flatten.take stopAt) := by
  have hgo := cpu_worker_go_spec O pfx sfx stopAt batches 0 WState.init
  have hinv := worker_run_invariant O pfx sfx 10000 (by norm_num)
    (batches.flatten.take stopAt) WState.init
    (by simp [WState.init]) (by simp [WState.init])
  rw [Nat.sub_zero, Nat.zero_add] at hgo
  have hsum := hinv.2.2
  rw [show WState.init.deltas = [] from rfl,
    show WState.init.count = 0 from rfl] at hsum
  simp only [List.sum_nil, Nat.zero_add] at hsum
  unfold cpu_worker
  rw [hgo]
  dsimp only
  by_cases hc : 0 <
      (worker_run O pfx sfx 10000 WState.init (batches.flatten.take stopAt)).count
  · rw [if_pos hc]
    refine ⟨rfl, ?_⟩
    simp only [List.sum_append, List.sum_cons, List.sum_nil]
    omega
  · rw [if_neg hc]
    refine ⟨rfl, ?_⟩
    dsimp only
    omega

end TronWallet

namespace TronWallet

/-- C5: starting from a fresh state, each worker loop emits its local counter
as a delta and resets it exactly when it reaches the variant's reporting
granularity (5000 in the CPU multiprocess `worker`, 10000 in the hybrid
`cpu_worker`): after any run the local counter is strictly below the
granularity (so it is at every loop-iteration boundary), every emitted delta
equals the granularity, and emitted deltas plus the residual counter account
exactly for the counted successful derivations — in particular the sum of
all deltas the hybrid worker ever emits (its final flush included, see C6)
equals the number of successful derivations it counted. -/
theorem worker_reporting_granularity (O : CryptoOracles) (pfx sfx : List Char)
    (keys : List (List Nat)) (stopAt : Nat)
    (batches : List (List (List Nat))) :
    ((worker_run O pfx sfx 5000 WState.init keys).count < 5000 ∧
     (∀ d ∈ (worker_run O pfx sfx 5000 WState.init keys).deltas, d = 5000) ∧
     (worker_run O pfx sfx 5000 WState.init keys).deltas.sum +
        (worker_run O pfx sfx 5000 WState.init keys).count =
       successCount O keys) ∧
    ((cpu_worker_go O pfx sfx stopAt 0 WState.init batches).2.count < 10000 ∧
     (∀ d ∈ (cpu_worker_go O pfx sfx stopAt 0 WState.init batches).2.deltas,
        d = 10000) ∧
     (cpu_worker O pfx sfx stopAt batches).2.deltas.sum =
       successCount O (batches.flatten.take stopAt)) := by
  have h5 := worker_run_invariant O pfx sfx 5000 (by norm_num) keys WState.init
    (by simp [WState.init]) (by simp [WState.init])
  have h5sum := h5.2.2
  rw [show WState.init.deltas = [] from rfl,
    show WState.init.count = 0 from rfl] at h5sum
  simp only [List.sum_nil, Nat.zero_add] at h5sum
  refine ⟨⟨h5.1, h5.2.1, by omega⟩, ?_⟩
  have hgo := cpu_worker_go_spec O pfx sfx stopAt batches 0 WState.init
  rw [Nat.sub_zero, Nat.zero_add] at hgo
  have h10 := worker_run_invariant O pfx sfx 10000 (by norm_num)
    (batches.flatten.take stopAt) WState.init
    (by simp [WState.init]) (by simp [WState.init])
  rw [hgo]
  exact ⟨h10.1, h10.2.1, (cpu_worker_spec O pfx sfx stopAt batches).2⟩

/-- Witness for C5 at one valid candidate for each variant. -/
theorem worker_reporting_granularity_witness :
    ((worker_run trivialOracles ['M'] ['q'] 5000 WState.init
        [List.replicate 31 0 ++ [1]]).count < 5000 ∧
     (∀ d ∈ (worker_run trivialOracles ['M'] ['q'] 5000 WState.init
        [List.replicate 31 0 ++ [1]]).deltas, d = 5000) ∧
     (worker_run trivialOracles ['M'] ['q'] 5000 WState.init
        [List.replicate 31 0 ++ [1]]).deltas.sum +
        (worker_run trivialOracles ['M'] ['q'] 5000 WState.init
          [List.replicate 31 0 ++ [1]]).count =
       successCount trivialOracles [List.replicate 31 0 ++ [1]]) ∧
    ((cpu_worker_go trivialOracles ['M'] ['q'] 5 0 WState.init
        [[List.replicate 31 0 ++ [1]]]).2.count < 10000 ∧
     (∀ d ∈ (cpu_worker_go trivialOracles ['M'] ['q'] 5 0 WState.init
        [[List.replicate 31 0 ++ [1]]]).2.deltas, d = 10000) ∧
     (cpu_worker trivialOracles ['M'] ['q'] 5
        [[List.replicate 31 0 ++ [1]]]).2.deltas.sum =
       successCount trivialOracles
         (([[List.replicate 31 0 ++ [1]]] :
            List (List (List Nat))).flatten.take 5)) :=
  worker_reporting_granularity trivialOracles ['M'] ['q']
    [List.replicate 31 0 ++ [1]] 5 [[List.replicate 31 0 ++ [1]]]

/-- C6 counterexample: the claim quantifies over every worker in every
variant, but the CPU multiprocess variant's `worker` (tron_gpu.py lines
73-113) is a `while True:` loop with no stop flag anywhere in its program —
workers are killed externally with `terminate()`.  Concretely, with the
ambient stop flag already true before the first candidate, the worker still
processes the second candidate after finishing the first (it does not exit
its loop after the current candidate) and is left with a non-zero local
counter and no emitted delta — killed at that point, the residual count is
lost, never flushed.  The run is also literally independent of the flag. -/
theorem worker_ignores_stop_flag :
    (worker trivialOracles ['M'] ['q'] true WState.init
        [List.replicate 31 0 ++ [1], List.replicate 31 0 ++ [1]]).count = 2 ∧
    (worker trivialOracles ['M'] ['q'] true WState.init
        [List.replicate 31 0 ++ [1], List.replicate 31 0 ++ [1]]).deltas = [] ∧
    worker trivialOracles ['M'] ['q'] true WState.init
        [List.replicate 31 0 ++ [1], List.replicate 31 0 ++ [1]] =
      worker trivialOracles ['M'] ['q'] false WState.init
        [List.replicate 31 0 ++ [1], List.replicate 31 0 ++ [1]] := by
  refine ⟨by decide, by decide, rfl⟩

/-- C6 (amended): in the hybrid variant the claim holds — a CPU worker that
observes the stop flag (set before its `t`-th candidate check) processes no
candidate at or after that check (it finishes the one in flight, so the
number of processed candidates is exactly `min` of the stream length and the
stop time), exits its loop, and on exit flushes any non-zero residual
counter, so the deltas it has emitted sum to every successful derivation it
counted; the CPU multiprocess variant's workers have no stop flag and run
until externally terminated (see the counterexample). -/
theorem cpu_worker_stop_and_flush (O : CryptoOracles) (pfx sfx : List Char)
    (stopAt : Nat) (batches : List (List (List Nat))) :
    (cpu_worker O pfx sfx stopAt batches).1 =
      min batches.flatten.length stopAt ∧
    (cpu_worker O pfx sfx stopAt batches).1 ≤ stopAt ∧
    (cpu_worker O pfx sfx stopAt batches).2.deltas.sum =
      successCount O (batches.flatten.take stopAt) := by
  obtain ⟨h1, h2⟩ := cpu_worker_spec O pfx sfx stopAt batches
  refine ⟨h1, ?_, h2⟩
  rw [h1]
  omega

end TronWallet

namespace TronWallet

/-- C4 counterexample: with the queue already holding its bound of 10
batches and no worker dequeuing, the producer loop run over two further
generated batches leaves the queue unchanged and discards both batches —
`put(keys, timeout=1)` raises `queue.Full`, the bare `except: pass` swallows
it, and the loop proceeds to generate the next batch.  The producer does
not block retrying the same batch: it keeps generating and dropping. -/
theorem gpu_key_generator_drops_full_queue :
    gpu_key_generator 10 (List.replicate 10 (0 : Nat)) [1, 2] =
      (List.replicate 10 0, [1, 2]) := by
  decide

/-- C4 (amended): with the bounded queue of depth 10 and all workers paused,
the producer's enqueue succeeds only while the queue has room, so the queue
never grows past 10 batches (memory stays bounded); but once the queue is
full the producer does not block with the same batch — every batch generated
while the queue is full is discarded by the swallowed `queue.Full`, and the
producer moves on to generate the next one. -/
theorem gpu_key_generator_backpressure {α : Type} (batches : List α) :
    ∀ q : List α, q.length ≤ 10 →
      (gpu_key_generator 10 q batches).1.length ≤ 10 ∧
      (q.length = 10 → gpu_key_generator 10 q batches = (q, batches)) := by
  induction batches with
  | nil =>
      intro q h
      exact ⟨h, fun _ => rfl⟩
  | cons b bs ih =>
      intro q h
      show (gpu_key_generator 10 q (b :: bs)).1.length ≤ 10 ∧ _
      unfold gpu_key_generator key_queue_put
      by_cases hq : q.length < 10
      · rw [if_pos hq]
        dsimp only
        have hlen : (q ++ [b]).length ≤ 10 := by
          simp only [List.length_append, List.length_singleton]
          omega
        refine ⟨?_, ?_⟩
        · simpa using (ih (q ++ [b]) hlen).1
        · intro h10
          omega
      · rw [if_neg hq]
        dsimp only
        have h10 : q.length = 10 := by omega
        have hih := ih q h
        refine ⟨by simpa using hih.1, ?_⟩
        intro _
        rw [hih.2 h10]
        simp

/-- Witness for C4's amended theorem at a full queue of 10 placeholder
batches and two further generated batches. -/
theorem gpu_key_generator_backpressure_witness :
    (gpu_key_generator 10 (List.replicate 10 (0 : Nat)) [1, 2]).1.length ≤ 10 ∧
    ((List.replicate 10 (0 : Nat)).length = 10 →
      gpu_key_generator 10 (List.replicate 10 (0 : Nat)) [1, 2] =
        (List.replicate 10 0, [1, 2])) :=
  gpu_key_generator_backpressure [1, 2] (List.replicate 10 0) (by decide)

end TronWallet

namespace TronWallet

theorem linesOf_append_cons (A B : List Char) (h : '\n' ∉ A) :
    linesOf (A ++ '\n' :: B) = A :: linesOf B := by
  induction A with
  | nil => simp [linesOf]
  | cons c cs ih =>
      have hc : ¬ c = '\n' := fun e => h (by simp [e])
      have ihh := ih (fun hm => h (List.mem_cons_of_mem _ hm))
      show linesOf (c :: (cs ++ '\n' :: B)) = _
      simp only [linesOf, if_neg hc, ihh]

theorem bytesHex_length (bs : List Nat) : (bytesHex bs).length = 2 * bs.length := by
  induction bs with
  | nil => rfl
  | cons b t ih =>
      have hcons : bytesHex (b :: t) = byteHex b ++ bytesHex t := by
        simp [bytesHex]
      rw [hcons, List.length_append, ih]
      simp [byteHex]
      omega

theorem bytesHex_mem (bs : List Nat) (h : ∀ b ∈ bs, b < 256) :
    ∀ c ∈ bytesHex bs, c ∈ HEX_DIGITS := by
  induction bs with
  | nil =>
      intro c hc
      simp [bytesHex] at hc
  | cons b t ih =>
      intro c hc
      simp only [bytesHex, List.flatMap_cons, List.mem_append] at hc
      rcases hc with hc | hc
      · have hb : b < 256 := h b (by simp)
        have hget : ∀ i < 16, HEX_DIGITS.getD i '?' ∈ HEX_DIGITS := by decide
        simp only [byteHex, List.mem_cons, List.not_mem_nil, or_false] at hc
        rcases hc with rfl | rfl
        · exact hget (b / 16) (by omega)
        · exact hget (b % 16) (by omega)
      · exact ih (fun x hx => h x (by simp [hx])) c hc

/-- C7: persisting a hit appends (the file is opened in mode `'a'`; the old
content stays as a prefix) exactly one block whose newline decomposition is
the `Address:` line, the `Private Key:` line, the `Time:` line, and the
separator line of 50 `'='` characters (followed by the empty line the
trailing `"\n\n"` leaves, plus the empty tail every newline-terminated
string has); the private-key field, `bytes.hex()` of the 32-byte key, is
exactly 64 hexadecimal characters. -/
theorem save_result_record (file address timeStr : List Char) (key : List Nat)
    (hklen : key.length = 32) (hkb : ∀ b ∈ key, b < 256)
    (ha : '\n' ∉ address) (ht : '\n' ∉ timeStr) :
    save_result file address (bytesHex key) timeStr =
      file ++ resultRecord address (bytesHex key) timeStr ∧
    (bytesHex key).length = 64 ∧
    (∀ c ∈ bytesHex key, c ∈ HEX_DIGITS) ∧
    linesOf (resultRecord address (bytesHex key) timeStr) =
      ["Address: ".toList ++ address,
       "Private Key: ".toList ++ bytesHex key,
       "Time: ".toList ++ timeStr,
       List.replicate 50 '=', [], []] := by
  have hhexmem := bytesHex_mem key hkb
  have hhexnl : '\n' ∉ bytesHex key := by
    intro hm
    have := hhexmem '\n' hm
    revert this
    decide
  have h1 : '\n' ∉ "Address: ".toList ++ address := by
    intro hm
    rcases List.mem_append.mp hm with hm | hm
    · revert hm
      decide
    · exact ha hm
  have h2 : '\n' ∉ "Private Key: ".toList ++ bytesHex key := by
    intro hm
    rcases List.mem_append.mp hm with hm | hm
    · revert hm
      decide
    · exact hhexnl hm
  have h3 : '\n' ∉ "Time: ".toList ++ timeStr := by
    intro hm
    rcases List.mem_append.mp hm with hm | hm
    · revert hm
      decide
    · exact ht hm
  have h4 : '\n' ∉ List.replicate 50 '=' := by
    decide
  have e1 : resultRecord address (bytesHex key) timeStr =
      ("Address: ".toList ++ address) ++ '\n' ::
        (("Private Key: ".toList ++ bytesHex key) ++ '\n' ::
          (("Time: ".toList ++ timeStr) ++ '\n' ::
            (List.replicate 50 '=' ++ '\n' :: ['\n']))) := by
    unfold resultRecord
    simp [List.append_assoc]
  refine ⟨rfl, ?_, hhexmem, ?_⟩
  · rw [bytesHex_length, hklen]
  · rw [e1, linesOf_append_cons _ _ h1, linesOf_append_cons _ _ h2,
      linesOf_append_cons _ _ h3, linesOf_append_cons _ _ h4]
    rfl

/-- Witness for C7: a concrete 32-byte key (whose hex is 64 characters), a
two-character address and one-character timestamp. -/
theorem save_result_record_witness :
    save_result [] ['T', 'x'] (bytesHex (List.replicate 32 171)) ['t'] =
      [] ++ resultRecord ['T', 'x'] (bytesHex (List.replicate 32 171)) ['t'] ∧
    (bytesHex (List.replicate 32 171)).length = 64 ∧
    (∀ c ∈ bytesHex (List.replicate 32 171), c ∈ HEX_DIGITS) ∧
    linesOf (resultRecord ['T', 'x'] (bytesHex (List.replicate 32 171)) ['t']) =
      ["Address: ".toList ++ ['T', 'x'],
       "Private Key: ".toList ++ bytesHex (List.replicate 32 171),
       "Time: ".toList ++ ['t'],
       List.replicate 50 '=', [], []] :=
  save_result_record [] ['T', 'x'] ['t'] (List.replicate 32 171)
    (by decide) (by decide) (by decide) (by decide)

end TronWallet

namespace TronWallet

/-- C8: `private_key_to_address` is deterministic and pure.  In the
state-threading embedding (which threads the ambient mutable state — entropy
stream and clock — through every call), running the derivation in any two
worlds yields the same result, and the world is returned unchanged: the
result depends only on the key (and the fixed external primitives), and two
successive calls with the same key agree. -/
theorem private_key_to_address_pure (O : CryptoOracles) (key : List Nat)
    (w1 w2 : World) :
    (private_key_to_addressW O w1 key).1 = (private_key_to_addressW O w2 key).1 ∧
    (private_key_to_addressW O w1 key).2 = w1 ∧
    (private_key_to_addressW O
        ((private_key_to_addressW O w1 key).2) key).1 =
      (private_key_to_addressW O w1 key).1 :=
  ⟨rfl, rfl, rfl⟩

theorem drain_results_spec :
    ∀ (q : List (List Char × List Nat)) (found : Nat),
      drain_results found q = (found + q.length, q) := by
  intro q
  induction q with
  | nil =>
      intro found
      simp [drain_results]
  | cons r rs ih =>
      intro found
      show drain_results found (r :: rs) = _
      unfold drain_results
      rw [ih (found + 1)]
      simp only [List.length_cons, Prod.mk.injEq]
      refine ⟨by omega, trivial⟩

/-- C9: the CPU multiprocess aggregator's result-queue drain has no early
break: every hit queued at drain time is counted and persisted even after
the count has reached the target, so the final count is the starting count
plus the whole queue length — strictly above the configured target whenever
enough hits are queued. -/
theorem drain_results_counts_past_target (found target : Nat)
    (q : List (List Char × List Nat)) (h : target < found + q.length) :
    (drain_results found q).1 = found + q.length ∧
    (drain_results found q).2 = q ∧
    target < (drain_results found q).1 := by
  have hs := drain_results_spec q found
  rw [hs]
  exact ⟨rfl, rfl, h⟩

/-- Witness for C9: target 1, two hits in the queue at drain time — both are
counted and persisted and the final count 2 exceeds the target. -/
theorem drain_results_counts_past_target_witness :
    (drain_results 0 [(['T', 'a'], [1]), (['T', 'b'], [2])]).1 = 0 + 2 ∧
    (drain_results 0 [(['T', 'a'], [1]), (['T', 'b'], [2])]).2 =
      [(['T', 'a'], [1]), (['T', 'b'], [2])] ∧
    1 < (drain_results 0 [(['T', 'a'], [1]), (['T', 'b'], [2])]).1 :=
  drain_results_counts_past_target 0 1 [(['T', 'a'], [1]), (['T', 'b'], [2])]
    (by decide)

end TronWallet
